import Mathlib

/-!
Verification of the transcription comparison engine
(`backend/app/services/transcription_comparer.py`).

The Python source is shallowly embedded below: every `def` mirrors one
Python function or method of the module, with floats modelled as `ℚ`,
Python lists as `List`, and the in-place `result.append` accumulation
turned into explicit list concatenation.  The character classes of the
regexes (`\w`, `\s`) are modelled over ASCII; `difflib.SequenceMatcher`
is modelled without the `autojunk` heuristic, which only activates on
strings of length ≥ 200 and is irrelevant to every statement proved
here.
-/

set_option maxHeartbeats 1000000
set_option allowUnsafeReducibility true

attribute [semireducible] Rat.add Rat.mul Rat.inv Rat.div Rat.sub Rat.neg Rat.blt
  Rat.normalize Rat.divInt

/-! ## Character classes and word normalization -/

/-- ASCII model of the Python regex class `\s` (whitespace). -/
def isWs (c : Char) : Bool :=
  c = ' ' || c = '\t' || c = '\n' || c = '\r' || c.toNat = 11 || c.toNat = 12

/-- ASCII model of the Python regex class `\w` (word characters). -/
def isWordChar (c : Char) : Bool :=
  c.isAlphanum || c = '_'

/-- Python `str.strip()`: drop whitespace from both ends. -/
def stripEnds (cs : List Char) : List Char :=
  ((cs.dropWhile isWs).reverse.dropWhile isWs).reverse

/-- Embeds `normalize_word`: lowercase, drop every character that is
neither a word character nor whitespace (the regex `[^\w\s]`), strip. -/
def normalize_word (s : String) : String :=
  ⟨stripEnds ((s.data.map Char.toLower).filter (fun c => isWordChar c || isWs c))⟩

/-! ## Similarity scoring (difflib.SequenceMatcher model) -/

/-- Length of the common prefix of two character lists: the size of the
matching block starting at a given pair of positions. -/
def runLen : List Char → List Char → Nat
  | a :: as, b :: bs => if a = b then runLen as bs + 1 else 0
  | _, _ => 0

/-- Embeds `SequenceMatcher.find_longest_match` (no junk): among all
matching blocks `(i, j, k)` return the one with maximal `k`, ties broken
by least `i`, then least `j`.  Returns `(0, 0, 0)` when there is no
nonempty common block. -/
def flm (a b : List Char) : Nat × Nat × Nat :=
  ((List.range a.length).flatMap
      (fun i => (List.range b.length).map (fun j => (i, j)))).foldl
    (fun best ij =>
      let k := runLen (a.drop ij.1) (b.drop ij.2)
      if best.2.2 < k then (ij.1, ij.2, k) else best)
    (0, 0, 0)

/-- Embeds the sum of the sizes of `SequenceMatcher.get_matching_blocks`:
recursively take the longest matching block and recurse on both sides.
The fuel bounds the recursion depth; every recursive call strictly
decreases `a.length + b.length`, so fuel `a.length + b.length + 1` is
never exhausted. -/
def matchTotal : Nat → List Char → List Char → Nat
  | 0, _, _ => 0
  | fuel + 1, a, b =>
    let r := flm a b
    if r.2.2 = 0 then 0
    else
      r.2.2 + matchTotal fuel (a.take r.1) (b.take r.2.1) +
        matchTotal fuel (a.drop (r.1 + r.2.2)) (b.drop (r.2.1 + r.2.2))

/-- Embeds `SequenceMatcher.ratio`: `2*M / (len a + len b)`, and `1.0`
when both strings are empty. -/
def ratioVal (a b : List Char) : ℚ :=
  if a.length + b.length = 0 then 1
  else
    (2 * (matchTotal (a.length + b.length + 1) a b : ℚ)) / (a.length + b.length)

/-- Embeds `calculate_similarity`. -/
def calculate_similarity (word1 word2 : String) : ℚ :=
  if word1.data = [] ∧ word2.data = [] then 1
  else if word1.data = [] ∨ word2.data = [] then 0
  else ratioVal word1.data word2.data

/-- Embeds `are_equivalent`. -/
def are_equivalent (word1 word2 : String) : Bool :=
  if word1.data = [] ∧ word2.data = [] then true
  else if word1.data = [] ∨ word2.data = [] then false
  else word1 == word2

/-! ## Tokenizer -/

/-- Worker for `findAllNonWS`.  The fuel argument only serves to make
the recursion structural; it is always at least the length of the list,
so the fuel-exhaustion branch is never taken (`findAllNonWSF_fuel`). -/
def findAllNonWSF : Nat → List Char → List (List Char)
  | 0, _ => []
  | _, [] => []
  | fuel + 1, c :: cs =>
    if isWs c then findAllNonWSF fuel cs
    else (c :: cs.takeWhile (fun d => !isWs d)) ::
      findAllNonWSF fuel (cs.dropWhile (fun d => !isWs d))

/-- Embeds the match list of `re.findall(r'\S+', text)`: the maximal
runs of non-whitespace characters, in order (skip leading whitespace,
take the maximal non-whitespace run, repeat). -/
def findAllNonWS (cs : List Char) : List (List Char) :=
  findAllNonWSF cs.length cs

/-- Embeds the dataclass `Word`: surface text, timestamp, normalized form. -/
structure Word where
  text : String
  timestamp : ℚ
  normalized : String
deriving DecidableEq, Repr

/-- Placeholder word used for (provably in-bounds) list indexing. -/
def dummyWord : Word := ⟨"", 0, ""⟩

/-- Embeds `text_to_word_list`: split into non-whitespace runs; token `i`
takes `timestamps[i]` when that index exists, else `0.0`.  A `None`
timestamps argument behaves exactly like `[]`, so both are modelled by
the empty list. -/
def text_to_word_list (text : String) (timestamps : List ℚ) : List Word :=
  (findAllNonWS text.data).enum.map
    (fun p => { text := ⟨p.2⟩,
                timestamp := if p.1 < timestamps.length then timestamps.getD p.1 0 else 0,
                normalized := normalize_word ⟨p.2⟩ })

/-! ## Diff entries -/

/-- The closed classification set of the diff output. -/
inductive Kind where
  | correct
  | mistake
  | missing
  | wrong
deriving DecidableEq, Repr

/-- Embeds one output dictionary `{'text': ..., 'type': ...}`. -/
structure DiffItem where
  text : String
  type : Kind
deriving DecidableEq, Repr

/-- Embeds the constructor arguments of `TranscriptionComparerV4Pro`. -/
structure Cfg where
  mistake_threshold : ℚ := 3 / 4
  window_size : Nat := 20
  max_search : Nat := 200

/-- Embeds `TranscriptionComparerV4Pro.is_mistake`: similarity at least
the threshold. -/
def is_mistake (cfg : Cfg) (user_norm reference_norm : String) : Bool :=
  cfg.mistake_threshold ≤ calculate_similarity user_norm reference_norm

/-! ## The aligner (`TranscriptionComparerV4Pro`) -/

/-- First-hit search over a list together with the position of the hit,
mirroring a Python `for idx, x in enumerate(...)` loop that returns on
its first success. -/
def findSomeIdx (f : Nat → α → Option β) : Nat → List α → Option β
  | _, [] => none
  | i, a :: l =>
    match f i a with
    | some b => some b
    | none => findSomeIdx f (i + 1) l

/-- Embeds `generate_dubles`: all pairs of consecutive words. -/
def generate_dubles : List Word → List (Word × Word)
  | [] => []
  | [_] => []
  | a :: b :: rest => (a, b) :: generate_dubles (b :: rest)

/-- Embeds `are_dubles_equivalent`: both component words equivalent. -/
def are_dubles_equivalent (duble1 duble2 : Word × Word) : Bool :=
  are_equivalent duble1.1.normalized duble2.1.normalized &&
    are_equivalent duble1.2.normalized duble2.2.normalized

/-- Embeds `range(0, min(len(reference_target), max_search), window_size)`:
the start offsets of the search windows. -/
def windowStarts (cfg : Cfg) (targetLen : Nat) : List Nat :=
  List.range' 0 ((min targetLen cfg.max_search + cfg.window_size - 1) / cfg.window_size)
    cfg.window_size

/-- Embeds the triple-nested duble search of `realign_with_dubles`:
scan user dubles in order; for each, scan windows in order; within each
window, scan reference dubles in order; the first equivalent pair wins.
Returns the user duble offset, the offset of the matching reference
duble inside `reference_target`, and the matching user duble. -/
def findDubleMatch (cfg : Cfg) (userDubles : List (Word × Word))
    (referenceTarget : List Word) : Option (Nat × Nat × (Word × Word)) :=
  findSomeIdx
    (fun userOffset dubleUser =>
      (windowStarts cfg referenceTarget.length).findSome?
        (fun windowStart =>
          findSomeIdx
            (fun referenceOffset dubleReference =>
              if are_dubles_equivalent dubleUser dubleReference then
                some (userOffset, windowStart + referenceOffset, dubleUser)
              else none)
            0
            (generate_dubles ((referenceTarget.drop windowStart).take cfg.window_size))))
    0 userDubles

/-- Embeds the single-token fallback loop of `realign_with_dubles`: scan
the reference forward (bounded by `max_search`) for the first token that
is equivalent to — or, failing that, a mistake for — the current user
token.  Returns the absolute reference index and the classification. -/
def singleScan (cfg : Cfg) (user_words : List Word) (user_idx : Nat)
    (reference_words : List Word) (reference_idx : Nat) : Option (Nat × Kind) :=
  if user_idx < user_words.length then
    let uw := user_words.getD user_idx dummyWord
    let maxRef := min reference_words.length (reference_idx + cfg.max_search)
    (List.range' reference_idx (maxRef - reference_idx)).findSome?
      (fun j =>
        if are_equivalent uw.normalized (reference_words.getD j dummyWord).normalized then
          some (j, Kind.correct)
        else if is_mistake cfg uw.normalized (reference_words.getD j dummyWord).normalized then
          some (j, Kind.mistake)
        else none)
  else none

/-- Embeds the two inner `for i, uw in enumerate(user_gap)` loops of
`fill_field_gaps`: index of the first user word that is not yet used and
satisfies the predicate. -/
def findFree (p : Word → Bool) : List Word → List Bool → Option Nat
  | [], _ => none
  | w :: ws, used =>
    if used.headD false = false && p w then some 0
    else (findFree p ws used.tail).map (· + 1)

/-- Embeds the first pass of `fill_field_gaps` (the loop over
`reference_gap`): returns the final `user_used` flags and the emitted
entries. -/
def fillPass (cfg : Cfg) (user_gap : List Word) :
    List Bool → List Word → List Bool × List DiffItem
  | used, [] => (used, [])
  | used, rw :: rest =>
    match findFree (fun uw => are_equivalent uw.normalized rw.normalized) user_gap used with
    | some i =>
      let r := fillPass cfg user_gap (used.set i true) rest
      (r.1, ⟨(user_gap.getD i dummyWord).text, Kind.correct⟩ :: r.2)
    | none =>
      match findFree (fun uw => is_mistake cfg uw.normalized rw.normalized) user_gap used with
      | some i =>
        let r := fillPass cfg user_gap (used.set i true) rest
        (r.1, ⟨(user_gap.getD i dummyWord).text, Kind.mistake⟩ :: r.2)
      | none =>
        let r := fillPass cfg user_gap used rest
        (r.1, ⟨rw.text, Kind.missing⟩ :: r.2)

/-- Embeds the final pass of `fill_field_gaps` (the loop over
`enumerate(user_used)`): every user word whose flag is still unset is
emitted as `wrong`, in original order. -/
def remainingWrongs : List Word → List Bool → List DiffItem
  | [], _ => []
  | w :: ws, used =>
    if used.headD false then remainingWrongs ws used.tail
    else ⟨w.text, Kind.wrong⟩ :: remainingWrongs ws used.tail

/-- Embeds `fill_field_gaps` (the in-place appends are returned as a
list): reference-driven entries first, then the unclaimed user words as
`wrong`. -/
def fill_field_gaps (cfg : Cfg) (user_gap reference_gap : List Word) : List DiffItem :=
  let r := fillPass cfg user_gap (List.replicate user_gap.length false) reference_gap
  r.2 ++ remainingWrongs user_gap r.1

/-- Embeds `realign_with_dubles`: returns the new user index, new
reference index, and the entries appended to `result`.  The duble search
runs first; on failure the single-token fallback; on failure of both the
cursors are returned unchanged with no output. -/
def realign_with_dubles (cfg : Cfg) (user_words : List Word) (user_start_idx : Nat)
    (reference_words : List Word) (reference_start_idx : Nat) (matched_once : Bool) :
    Nat × Nat × List DiffItem :=
  let user_new_words := user_words.drop user_start_idx
  let reference_target := reference_words.drop reference_start_idx
  match findDubleMatch cfg (generate_dubles user_new_words) reference_target with
  | some (userOffset, referenceOffset, dubleUser) =>
    let fullRef := reference_start_idx + referenceOffset
    let flush :=
      if !matched_once && decide (0 < fullRef) then
        (reference_target.take referenceOffset).map (fun w => (⟨w.text, Kind.missing⟩ : DiffItem))
      else []
    let gap := fill_field_gaps cfg (user_new_words.take userOffset)
      (reference_target.take referenceOffset)
    let anchor : List DiffItem :=
      [⟨dubleUser.1.text, Kind.correct⟩, ⟨dubleUser.2.text, Kind.correct⟩]
    (user_start_idx + userOffset + 2, fullRef + 2, flush ++ gap ++ anchor)
  | none =>
    match singleScan cfg user_words user_start_idx reference_words reference_start_idx with
    | some (j, kind) =>
      let flush :=
        if !matched_once && decide (0 < j) then
          (reference_target.take (j - reference_start_idx)).map
            (fun w => (⟨w.text, Kind.missing⟩ : DiffItem))
        else []
      (user_start_idx + 1, j + 1,
        flush ++ [⟨(user_words.getD user_start_idx dummyWord).text, kind⟩])
    | none => (user_start_idx, reference_start_idx, [])

/-- Embeds the two drain loops after the main `while`: remaining user
words become `wrong`, remaining reference words become `missing`. -/
def drain (user_words reference_words : List Word) (user_idx reference_idx : Nat) :
    List DiffItem :=
  (user_words.drop user_idx).map (fun w => (⟨w.text, Kind.wrong⟩ : DiffItem)) ++
    (reference_words.drop reference_idx).map (fun w => (⟨w.text, Kind.missing⟩ : DiffItem))

/-- Embeds one iteration of the main `while` loop of `compare`: the
entries appended during the iteration, followed by the next
`user_idx`, `reference_idx` and `matched_once` values. -/
def stepFn (cfg : Cfg) (user_words reference_words : List Word)
    (user_idx reference_idx : Nat) (matched_once : Bool) :
    List DiffItem × Nat × Nat × Bool :=
  let uw := user_words.getD user_idx dummyWord
  let rw := reference_words.getD reference_idx dummyWord
  if are_equivalent uw.normalized rw.normalized then
    ((if !matched_once && decide (0 < reference_idx) then
        (reference_words.take reference_idx).map
          (fun w => (⟨w.text, Kind.missing⟩ : DiffItem))
      else []) ++ [⟨uw.text, Kind.correct⟩],
     user_idx + 1, reference_idx + 1, true)
  else if is_mistake cfg uw.normalized rw.normalized then
    ((if !matched_once && decide (0 < reference_idx) then
        (reference_words.take reference_idx).map
          (fun w => (⟨w.text, Kind.missing⟩ : DiffItem))
      else []) ++ [⟨uw.text, Kind.mistake⟩],
     user_idx + 1, reference_idx + 1, true)
  else
    let r := realign_with_dubles cfg user_words user_idx reference_words reference_idx
      matched_once
    if r.2.2.isEmpty then
      (⟨(user_words.getD r.1 dummyWord).text, Kind.wrong⟩ ::
        (if matched_once then
          [⟨(reference_words.getD r.2.1 dummyWord).text, Kind.missing⟩] else []),
       r.1 + 1, (if matched_once then r.2.1 + 1 else r.2.1), matched_once)
    else (r.2.2, r.1, r.2.1, matched_once)

/-- Embeds the main `while` loop of `compare`.  The fuel argument makes
the recursion structural; since every iteration strictly increases
`user_idx` (see the termination theorem below), fuel
`user_words.length` always suffices, and the fuel-exhaustion branch
coincides with the loop-exit drain. -/
def loopGo (cfg : Cfg) (user_words reference_words : List Word) :
    Nat → Nat → Nat → Bool → List DiffItem
  | 0, user_idx, reference_idx, _ => drain user_words reference_words user_idx reference_idx
  | fuel + 1, user_idx, reference_idx, matched_once =>
    if user_idx < user_words.length ∧ reference_idx < reference_words.length then
      (stepFn cfg user_words reference_words user_idx reference_idx matched_once).1 ++
        loopGo cfg user_words reference_words fuel
          (stepFn cfg user_words reference_words user_idx reference_idx matched_once).2.1
          (stepFn cfg user_words reference_words user_idx reference_idx matched_once).2.2.1
          (stepFn cfg user_words reference_words user_idx reference_idx matched_once).2.2.2
    else drain user_words reference_words user_idx reference_idx

/-- Embeds `TranscriptionComparerV4Pro.compare`. -/
def TranscriptionComparerV4Pro.compare (cfg : Cfg) (user_text reference_text : String)
    (user_timestamps reference_timestamps : List ℚ) : List DiffItem :=
  let user_words := text_to_word_list user_text user_timestamps
  let reference_words := text_to_word_list reference_text reference_timestamps
  loopGo cfg user_words reference_words user_words.length 0 0 false

/-- Embeds the statistics dictionary of `get_detailed_comparison`. -/
structure Stats where
  correct_words : Nat
  mistake_words : Nat
  missing_words : Nat
  wrong_words : Nat
  total_words : Nat
deriving DecidableEq, Repr

/-- Embeds `get_detailed_comparison` (the `compare_and_score` entry
point): the diff from a default-configured comparer, the weighted
accuracy, and the per-kind counts. -/
def get_detailed_comparison (user_text reference_text : String)
    (user_timestamps reference_timestamps : List ℚ) : List DiffItem × ℚ × Stats :=
  let comparison := TranscriptionComparerV4Pro.compare {} user_text reference_text user_timestamps reference_timestamps
  let correct_count := comparison.countP (fun item => item.type == Kind.correct)
  let mistake_count := comparison.countP (fun item => item.type == Kind.mistake)
  let missing_count := comparison.countP (fun item => item.type == Kind.missing)
  let wrong_count := comparison.countP (fun item => item.type == Kind.wrong)
  let total_count := correct_count + mistake_count + missing_count + wrong_count
  let accuracy : ℚ :=
    if 0 < total_count then
      ((correct_count : ℚ) + (mistake_count : ℚ) * (1 / 2)) / (total_count : ℚ)
    else 0
  (comparison, accuracy,
    ⟨correct_count, mistake_count, missing_count, wrong_count, total_count⟩)

/-- Forgetting the timestamp of a word (used to state that the aligner
never reads timestamps). -/
def stripTs (w : Word) : Word := ⟨w.text, 0, w.normalized⟩

/-- Specification view of the `user_used` flags: the user-gap words whose
flag is still unset, in original order. -/
def selectUnused : List Word → List Bool → List Word
  | [], _ => []
  | w :: ws, used =>
    if used.headD false then selectUnused ws used.tail
    else w :: selectUnused ws used.tail

/-- Specification rendering of the gap-filling claim (phrased with an
explicit pool of not-yet-used user tokens): each reference token in order
claims the first available equivalent user token as `correct`, else the
first available mistake as `mistake`, else is emitted as `missing`;
claimed tokens leave the pool; the never-claimed pool is appended as
`wrong` in original order. -/
def fillGapsSpecGo (cfg : Cfg) : List Word → List Word → List DiffItem
  | avail, [] => avail.map (fun w => ⟨w.text, Kind.wrong⟩)
  | avail, rw :: rest =>
    match avail.find? (fun uw => are_equivalent uw.normalized rw.normalized) with
    | some uw =>
      ⟨uw.text, Kind.correct⟩ ::
        fillGapsSpecGo cfg
          (avail.eraseP (fun uw => are_equivalent uw.normalized rw.normalized)) rest
    | none =>
      match avail.find? (fun uw => is_mistake cfg uw.normalized rw.normalized) with
      | some uw =>
        ⟨uw.text, Kind.mistake⟩ ::
          fillGapsSpecGo cfg
            (avail.eraseP (fun uw => is_mistake cfg uw.normalized rw.normalized)) rest
      | none => ⟨rw.text, Kind.missing⟩ :: fillGapsSpecGo cfg avail rest

/-- The claim's description of `fill_gaps` as a whole: the pool starts
as the full user gap. -/
def fillGapsSpec (cfg : Cfg) (user_gap reference_gap : List Word) : List DiffItem :=
  fillGapsSpecGo cfg user_gap reference_gap

example : normalize_word "Don'T!" = "dont" := by decide
example : are_equivalent "cat" "cat" = true := by decide
example : calculate_similarity "cat" "bat" = 2 / 3 := by decide
example : is_mistake {} "cat" "bat" = false := by decide
example : is_mistake {} "cat" "cats" = true := by decide
example : (text_to_word_list "  the Cat " [5, 7]).map Word.normalized = ["the", "cat"] := by decide
example : (text_to_word_list "a b c" [5]).map Word.timestamp = [5, 0, 0] := by decide
example : TranscriptionComparerV4Pro.compare {} "hello world" "hello world" [] [] =
    [⟨"hello", Kind.correct⟩, ⟨"world", Kind.correct⟩] := by decide
example : TranscriptionComparerV4Pro.compare {} "xyz abc" "hello world" [] [] =
    [⟨"xyz", Kind.wrong⟩, ⟨"abc", Kind.wrong⟩,
     ⟨"hello", Kind.missing⟩, ⟨"world", Kind.missing⟩] := by decide
example : TranscriptionComparerV4Pro.compare {} "the cat sat" "the big cat sat" [] [] =
    [⟨"the", Kind.correct⟩, ⟨"big", Kind.missing⟩,
     ⟨"cat", Kind.correct⟩, ⟨"sat", Kind.correct⟩] := by decide
example : TranscriptionComparerV4Pro.compare {} "a x" "a b x" [] [] =
    [⟨"a", Kind.correct⟩, ⟨"x", Kind.correct⟩] := by decide

/-! ## Helper lemmas: similarity of a word with itself -/

/-- The fuel in `findAllNonWSF` is irrelevant as soon as it is at least
the length of the list. -/
theorem findAllNonWSF_fuel :
    ∀ (f₁ f₂ : Nat) (cs : List Char), cs.length ≤ f₁ → cs.length ≤ f₂ →
      findAllNonWSF f₁ cs = findAllNonWSF f₂ cs := by
  intro f₁
  induction f₁ with
  | zero =>
    intro f₂ cs h₁ _
    have : cs = [] := List.length_eq_zero.mp (Nat.le_zero.mp h₁)
    subst this
    cases f₂ <;> rfl
  | succ f ih =>
    intro f₂ cs h₁ h₂
    cases cs with
    | nil => cases f₂ <;> rfl
    | cons c cs =>
      cases f₂ with
      | zero => simp at h₂
      | succ g =>
        simp only [findAllNonWSF]
        by_cases hws : isWs c
        · simp only [hws, if_true]
          exact ih g cs (by simp at h₁; omega) (by simp at h₂; omega)
        · have hd := (List.dropWhile_sublist (l := cs) (fun d => !isWs d)).length_le
          rw [if_neg (by simp [hws]), if_neg (by simp [hws]),
            ih g _ (by simp at h₁; omega) (by simp at h₂; omega)]


theorem runLen_refl (a : List Char) : runLen a a = a.length := by
  induction a with
  | nil => rfl
  | cons c cs ih => simp [runLen, ih]

theorem runLen_le_left : ∀ (a b : List Char), runLen a b ≤ a.length := by
  intro a
  induction a with
  | nil => intro b; cases b <;> simp [runLen]
  | cons c cs ih =>
    intro b
    cases b with
    | nil => simp [runLen]
    | cons d ds =>
      simp only [runLen]
      by_cases h : c = d
      · simpa [h] using ih ds
      · simp [h]

theorem foldl_flm_fixed (a : List Char) (best : Nat × Nat × Nat)
    (hbest : best.2.2 = a.length) :
    ∀ (l : List (Nat × Nat)),
      l.foldl
        (fun best ij =>
          let k := runLen (a.drop ij.1) (a.drop ij.2)
          if best.2.2 < k then (ij.1, ij.2, k) else best)
        best = best := by
  intro l
  induction l with
  | nil => rfl
  | cons ij rest ih =>
    have hk : runLen (a.drop ij.1) (a.drop ij.2) ≤ a.length :=
      le_trans (runLen_le_left _ _) (by simp)
    simp only [List.foldl_cons]
    rw [if_neg (by omega), ih]

theorem flm_refl (a : List Char) (h : a ≠ []) : flm a a = (0, 0, a.length) := by
  obtain ⟨c, cs, rfl⟩ : ∃ c cs, a = c :: cs := by
    cases a with
    | nil => exact absurd rfl h
    | cons c cs => exact ⟨c, cs, rfl⟩
  obtain ⟨t, ht⟩ : ∃ t, List.range (c :: cs).length = 0 :: t := by
    refine ⟨(List.range cs.length).map Nat.succ, ?_⟩
    simp only [List.length_cons]
    exact List.range_succ_eq_map cs.length
  unfold flm
  rw [ht]
  simp only [List.flatMap_cons, List.map_cons, List.cons_append, List.foldl_cons]
  rw [if_pos (by simp [runLen_refl])]
  simp only [List.drop_zero, runLen_refl]
  exact foldl_flm_fixed _ _ rfl _

theorem matchTotal_nil (fuel : Nat) : matchTotal fuel [] [] = 0 := by
  cases fuel <;> rfl

theorem matchTotal_refl (fuel : Nat) (a : List Char) (h : a ≠ []) :
    matchTotal (fuel + 1) a a = a.length := by
  simp only [matchTotal, flm_refl a h]
  rw [if_neg (by simpa using h)]
  simp [matchTotal_nil]

theorem calculate_similarity_refl (a : String) (h : a ≠ "") :
    calculate_similarity a a = 1 := by
  have hdata : a.data ≠ [] := by
    intro hd
    exact h (by cases a; simp_all)
  have hlen : 0 < a.data.length := List.length_pos.mpr hdata
  unfold calculate_similarity
  rw [if_neg (by tauto), if_neg (by tauto)]
  unfold ratioVal
  rw [if_neg (by omega)]
  rw [matchTotal_refl _ _ hdata]
  have hq : ((a.data.length : ℚ)) ≠ 0 := Nat.cast_ne_zero.mpr (by omega)
  rw [show ((a.data.length : ℚ) + a.data.length) = 2 * a.data.length by ring]
  exact div_self (mul_ne_zero two_ne_zero hq)

/-! ## Claim theorems C1 - C3 -/

/-- C1 (code bug): the diff does not cover each input token exactly once.
On user text `"a x"` against reference text `"a b x"` the code emits only
`[correct "a", correct "x"]`: the reference token `"b"` is skipped by the
single-token fallback of `realign_with_dubles` without ever being emitted
(the flush is suppressed because `matched_once` is already true), so a
reference token is omitted from the diff. -/
theorem c1_coverage_violation_eval :
    TranscriptionComparerV4Pro.compare {} "a x" "a b x" [] [] =
      [⟨"a", Kind.correct⟩, ⟨"x", Kind.correct⟩] := by decide

/-- C2 (code bug): a flush-from-zero can happen after matches have been
emitted, because `compare` never sets `matched_once` when
`realign_with_dubles` produces a match.  On `"a x c d e"` vs `"b c d e"`
the duble anchor emits `correct "c", correct "d"` (and `"b"` twice as
missing: once by the realign flush and once by gap filling), yet the next
direct match of `"e"` still sees `matched_once = false` and flushes the
whole reference prefix `b, c, d` from index 0 again. -/
theorem c2_flush_after_match_eval :
    TranscriptionComparerV4Pro.compare {} "a x c d e" "b c d e" [] [] =
      [⟨"b", Kind.missing⟩, ⟨"b", Kind.missing⟩, ⟨"a", Kind.wrong⟩, ⟨"x", Kind.wrong⟩,
       ⟨"c", Kind.correct⟩, ⟨"d", Kind.correct⟩, ⟨"b", Kind.missing⟩, ⟨"c", Kind.missing⟩,
       ⟨"d", Kind.missing⟩, ⟨"e", Kind.correct⟩] := by decide

/-- C3 counterexample: with the default threshold, `is_mistake "a" "a"`
returns true even though `"a"` and `"a"` are equivalent, refuting the
claimed "AND not already equivalent" conjunct of `is_mistake`. -/
theorem c3_counterexample :
    is_mistake {} "a" "a" = true ∧ are_equivalent "a" "a" = true := by decide

/-- C3 (amended): `is_mistake(a, b, t)` returns true iff
`calculate_similarity(a, b) >= t`, with no equivalence exclusion inside
the function itself (exclusivity of `mistake` and `correct` comes from
the aligner checking equivalence first); in particular `is_mistake` is
true on equal nonempty words whenever the threshold is at most 1. -/
theorem c3_is_mistake_amended :
    (∀ (cfg : Cfg) (a b : String),
        is_mistake cfg a b = decide (cfg.mistake_threshold ≤ calculate_similarity a b))
    ∧ (∀ (cfg : Cfg) (a : String), a ≠ "" → cfg.mistake_threshold ≤ 1 →
        is_mistake cfg a a = true) := by
  constructor
  · intro cfg a b
    rfl
  · intro cfg a ha ht
    unfold is_mistake
    rw [calculate_similarity_refl a ha]
    simpa using ht

/-- C3 amended witness: the amended statement evaluated at `"a"` with the
default configuration. -/
theorem c3_amended_witness : is_mistake {} "a" "a" = true :=
  c3_is_mistake_amended.2 {} "a" (by decide) (by decide)

/-! ## Claim theorem C7: aggregation -/

/-- C7: `get_detailed_comparison` counts the four entry kinds, totals
them, and weighs mistakes as half credit; the accuracy is `0` on an
empty diff and always lies in `[0, 1]`; on two empty inputs the diff is
empty and all statistics are zero. -/
theorem c7_aggregate :
    (∀ (u r : String) (uts rts : List ℚ),
      (get_detailed_comparison u r uts rts).1 = TranscriptionComparerV4Pro.compare {} u r uts rts
      ∧ (get_detailed_comparison u r uts rts).2.2.correct_words =
          (TranscriptionComparerV4Pro.compare {} u r uts rts).countP (fun item => item.type == Kind.correct)
      ∧ (get_detailed_comparison u r uts rts).2.2.mistake_words =
          (TranscriptionComparerV4Pro.compare {} u r uts rts).countP (fun item => item.type == Kind.mistake)
      ∧ (get_detailed_comparison u r uts rts).2.2.missing_words =
          (TranscriptionComparerV4Pro.compare {} u r uts rts).countP (fun item => item.type == Kind.missing)
      ∧ (get_detailed_comparison u r uts rts).2.2.wrong_words =
          (TranscriptionComparerV4Pro.compare {} u r uts rts).countP (fun item => item.type == Kind.wrong)
      ∧ (get_detailed_comparison u r uts rts).2.2.total_words =
          (get_detailed_comparison u r uts rts).2.2.correct_words +
          (get_detailed_comparison u r uts rts).2.2.mistake_words +
          (get_detailed_comparison u r uts rts).2.2.missing_words +
          (get_detailed_comparison u r uts rts).2.2.wrong_words
      ∧ (get_detailed_comparison u r uts rts).2.1 =
          (if 0 < (get_detailed_comparison u r uts rts).2.2.total_words then
            (((get_detailed_comparison u r uts rts).2.2.correct_words : ℚ) +
              ((get_detailed_comparison u r uts rts).2.2.mistake_words : ℚ) * (1 / 2)) /
              ((get_detailed_comparison u r uts rts).2.2.total_words : ℚ)
          else 0)
      ∧ 0 ≤ (get_detailed_comparison u r uts rts).2.1
      ∧ (get_detailed_comparison u r uts rts).2.1 ≤ 1)
    ∧ get_detailed_comparison "" "" [] [] = ([], 0, ⟨0, 0, 0, 0, 0⟩) := by
  constructor
  · intro u r uts rts
    refine ⟨rfl, rfl, rfl, rfl, rfl, rfl, rfl, ?_, ?_⟩
    · show (0 : ℚ) ≤ (get_detailed_comparison u r uts rts).2.1
      unfold get_detailed_comparison
      set c := (TranscriptionComparerV4Pro.compare {} u r uts rts).countP (fun item => item.type == Kind.correct) with hc
      set m := (TranscriptionComparerV4Pro.compare {} u r uts rts).countP (fun item => item.type == Kind.mistake) with hm
      set mi := (TranscriptionComparerV4Pro.compare {} u r uts rts).countP (fun item => item.type == Kind.missing) with hmi
      set w := (TranscriptionComparerV4Pro.compare {} u r uts rts).countP (fun item => item.type == Kind.wrong) with hw
      simp only
      split
      · positivity
      · exact le_refl 0
    · show (get_detailed_comparison u r uts rts).2.1 ≤ 1
      unfold get_detailed_comparison
      set c := (TranscriptionComparerV4Pro.compare {} u r uts rts).countP (fun item => item.type == Kind.correct) with hc
      set m := (TranscriptionComparerV4Pro.compare {} u r uts rts).countP (fun item => item.type == Kind.mistake) with hm
      set mi := (TranscriptionComparerV4Pro.compare {} u r uts rts).countP (fun item => item.type == Kind.missing) with hmi
      set w := (TranscriptionComparerV4Pro.compare {} u r uts rts).countP (fun item => item.type == Kind.wrong) with hw
      simp only
      split
      · next htot =>
        rw [div_le_one (by exact_mod_cast htot)]
        push_cast
        have hm2 : (m : ℚ) * (1 / 2) ≤ (m : ℚ) := by
          nlinarith [Nat.cast_nonneg (α := ℚ) m]
        have : (0 : ℚ) ≤ (mi : ℚ) := Nat.cast_nonneg mi
        have : (0 : ℚ) ≤ (w : ℚ) := Nat.cast_nonneg w
        linarith
      · exact zero_le_one
  · rfl

/-! ## Claim theorem C8: tokenization -/

theorem findAllNonWSF_runs : ∀ (fuel : Nat) (cs : List Char) (run : List Char),
    run ∈ findAllNonWSF fuel cs → run ≠ [] ∧ ∀ ch ∈ run, isWs ch = false := by
  intro fuel
  induction fuel with
  | zero => intro cs run h; simp [findAllNonWSF] at h
  | succ f ih =>
    intro cs run h
    cases cs with
    | nil => simp [findAllNonWSF] at h
    | cons c cs =>
      simp only [findAllNonWSF] at h
      by_cases hws : isWs c
      · rw [if_pos hws] at h
        exact ih _ _ h
      · rw [if_neg hws] at h
        rcases List.mem_cons.mp h with heq | hmem
        · subst heq
          refine ⟨by simp, ?_⟩
          intro ch hch
          rcases List.mem_cons.mp hch with rfl | htw
          · simpa using hws
          · have := List.mem_takeWhile_imp htw
            simpa using this
        · exact ih _ _ hmem

/-- C8: `text_to_word_list` produces one token per maximal run of
non-whitespace characters (each run nonempty and whitespace-free), in
order; token `i` carries `timestamps[i]` when that index exists and `0`
otherwise; empty text yields the empty sequence (and the function is
total, so it has no failure mode). -/
theorem c8_tokenize :
    ∀ (t : String) (ts : List ℚ),
      (text_to_word_list t ts).length = (findAllNonWS t.data).length
      ∧ (∀ i, i < (text_to_word_list t ts).length →
          ((text_to_word_list t ts).getD i dummyWord).text =
            String.mk ((findAllNonWS t.data).getD i [])
          ∧ ((text_to_word_list t ts).getD i dummyWord).timestamp =
            (if i < ts.length then ts.getD i 0 else 0))
      ∧ (∀ run ∈ findAllNonWS t.data, run ≠ [] ∧ ∀ ch ∈ run, isWs ch = false)
      ∧ text_to_word_list "" ts = [] := by
  intro t ts
  have hlen : (text_to_word_list t ts).length = (findAllNonWS t.data).length := by
    simp [text_to_word_list]
  refine ⟨hlen, ?_, ?_, rfl⟩
  · intro i hi
    have hi' : i < (findAllNonWS t.data).length := hlen ▸ hi
    rw [List.getD_eq_getElem _ _ hi, List.getD_eq_getElem _ _ hi']
    simp [text_to_word_list, List.getElem_map, List.getElem_enum]
  · intro run hrun
    exact findAllNonWSF_runs _ _ _ hrun

/-- C8 witness: the tokenization statement evaluated on `"ab c"` with a
one-element timestamp list, at token index 0 and at the run `"ab"`. -/
theorem c8_tokenize_witness :
    (((text_to_word_list "ab c" [1 / 2]).getD 0 dummyWord).text =
        String.mk ((findAllNonWS "ab c".data).getD 0 [])
      ∧ ((text_to_word_list "ab c" [1 / 2]).getD 0 dummyWord).timestamp =
        (if 0 < ([(1 : ℚ) / 2]).length then ([(1 : ℚ) / 2]).getD 0 0 else 0))
    ∧ ("ab".data ≠ [] ∧ ∀ ch ∈ "ab".data, isWs ch = false) :=
  ⟨(c8_tokenize "ab c" [1 / 2]).2.1 0 (by decide),
   (c8_tokenize "ab c" [1 / 2]).2.2.1 "ab".data (by decide)⟩

/-! ## Claim C6: gap filling -/

theorem selectUnused_replicate_false (ug : List Word) :
    selectUnused ug (List.replicate ug.length false) = ug := by
  induction ug with
  | nil => rfl
  | cons w ws ih => simp [selectUnused, List.replicate_succ, ih]

theorem selectUnused_cons_true (w : Word) (ws : List Word) (us : List Bool) :
    selectUnused (w :: ws) (true :: us) = selectUnused ws us := by
  simp [selectUnused]

theorem selectUnused_cons_false (w : Word) (ws : List Word) (us : List Bool) :
    selectUnused (w :: ws) (false :: us) = w :: selectUnused ws us := by
  simp [selectUnused]

theorem findFree_cons_true (p : Word → Bool) (w : Word) (ws : List Word) (us : List Bool) :
    findFree p (w :: ws) (true :: us) = (findFree p ws us).map (· + 1) := by
  simp [findFree]

theorem findFree_cons_false_pos (p : Word → Bool) (w : Word) (ws : List Word)
    (us : List Bool) (hp : p w = true) :
    findFree p (w :: ws) (false :: us) = some 0 := by
  simp [findFree, hp]

theorem findFree_cons_false_neg (p : Word → Bool) (w : Word) (ws : List Word)
    (us : List Bool) (hp : ¬p w = true) :
    findFree p (w :: ws) (false :: us) = (findFree p ws us).map (· + 1) := by
  simp [findFree, hp]

theorem remainingWrongs_eq_selectUnused :
    ∀ (ug : List Word) (used : List Bool),
      remainingWrongs ug used =
        (selectUnused ug used).map (fun w => (⟨w.text, Kind.wrong⟩ : DiffItem)) := by
  intro ug
  induction ug with
  | nil => intro used; rfl
  | cons w ws ih =>
    intro used
    cases used with
    | nil => simp [remainingWrongs, selectUnused, ih []]
    | cons u us =>
      cases u with
      | true => simp [remainingWrongs, selectUnused, ih us]
      | false => simp [remainingWrongs, selectUnused, ih us]

theorem findFree_none (p : Word → Bool) :
    ∀ (ug : List Word) (used : List Bool), used.length = ug.length →
      findFree p ug used = none → (selectUnused ug used).find? p = none := by
  intro ug
  induction ug with
  | nil => intro used _ _; rfl
  | cons w ws ih =>
    intro used hlen hff
    cases used with
    | nil => simp at hlen
    | cons u us =>
      have hlen' : us.length = ws.length := by simpa using hlen
      cases u with
      | true =>
        rw [findFree_cons_true] at hff
        rw [selectUnused_cons_true]
        exact ih us hlen' (by simpa using hff)
      | false =>
        by_cases hp : p w
        · rw [findFree_cons_false_pos p w ws us hp] at hff
          exact absurd hff (by simp)
        · rw [findFree_cons_false_neg p w ws us hp] at hff
          rw [selectUnused_cons_false, List.find?_cons_of_neg _ hp]
          exact ih us hlen' (by simpa using hff)

theorem findFree_some (p : Word → Bool) :
    ∀ (ug : List Word) (used : List Bool) (i : Nat), used.length = ug.length →
      findFree p ug used = some i →
      (selectUnused ug used).find? p = some (ug.getD i dummyWord)
      ∧ selectUnused ug (used.set i true) = (selectUnused ug used).eraseP p := by
  intro ug
  induction ug with
  | nil => intro used i _ hff; simp [findFree] at hff
  | cons w ws ih =>
    intro used i hlen hff
    cases used with
    | nil => simp at hlen
    | cons u us =>
      have hlen' : us.length = ws.length := by simpa using hlen
      cases u with
      | true =>
        rw [findFree_cons_true] at hff
        obtain ⟨j, hj, rfl⟩ : ∃ j, findFree p ws us = some j ∧ i = j + 1 := by
          cases hfw : findFree p ws us with
          | none => rw [hfw] at hff; simp at hff
          | some j => rw [hfw] at hff; simp at hff; exact ⟨j, rfl, hff.symm⟩
        obtain ⟨h₁, h₂⟩ := ih us j hlen' hj
        refine ⟨?_, ?_⟩
        · rw [selectUnused_cons_true, List.getD_cons_succ]
          exact h₁
        · rw [List.set_cons_succ, selectUnused_cons_true, selectUnused_cons_true]
          exact h₂
      | false =>
        by_cases hp : p w
        · rw [findFree_cons_false_pos p w ws us hp] at hff
          obtain rfl : i = 0 := by simpa using hff.symm
          refine ⟨?_, ?_⟩
          · rw [selectUnused_cons_false, List.find?_cons_of_pos _ hp, List.getD_cons_zero]
          · rw [List.set_cons_zero, selectUnused_cons_true, selectUnused_cons_false,
              List.eraseP_cons_of_pos hp]
        · rw [findFree_cons_false_neg p w ws us hp] at hff
          obtain ⟨j, hj, rfl⟩ : ∃ j, findFree p ws us = some j ∧ i = j + 1 := by
            cases hfw : findFree p ws us with
            | none => rw [hfw] at hff; simp at hff
            | some j => rw [hfw] at hff; simp at hff; exact ⟨j, rfl, hff.symm⟩
          obtain ⟨h₁, h₂⟩ := ih us j hlen' hj
          refine ⟨?_, ?_⟩
          · rw [selectUnused_cons_false, List.find?_cons_of_neg _ hp, List.getD_cons_succ]
            exact h₁
          · rw [List.set_cons_succ, selectUnused_cons_false, selectUnused_cons_false,
              List.eraseP_cons_of_neg hp, h₂]

theorem fillPass_spec (cfg : Cfg) (ug : List Word) :
    ∀ (rg : List Word) (used : List Bool), used.length = ug.length →
      (fillPass cfg ug used rg).2 ++ remainingWrongs ug (fillPass cfg ug used rg).1 =
        fillGapsSpecGo cfg (selectUnused ug used) rg := by
  intro rg
  induction rg with
  | nil =>
    intro used hlen
    simp [fillPass, fillGapsSpecGo, remainingWrongs_eq_selectUnused]
  | cons rw rest ih =>
    intro used hlen
    cases hE : findFree (fun uw => are_equivalent uw.normalized rw.normalized) ug used with
    | some i =>
      obtain ⟨hfind, herase⟩ := findFree_some _ ug used i hlen hE
      simp only [fillPass, hE, fillGapsSpecGo, hfind, List.cons_append]
      rw [← herase]
      exact congrArg _ (ih (used.set i true) (by simpa using hlen))
    | none =>
      have hfindE := findFree_none _ ug used hlen hE
      cases hM : findFree (fun uw => is_mistake cfg uw.normalized rw.normalized) ug used with
      | some i =>
        obtain ⟨hfind, herase⟩ := findFree_some _ ug used i hlen hM
        simp only [fillPass, hE, hM, fillGapsSpecGo, hfindE, hfind, List.cons_append]
        rw [← herase]
        exact congrArg _ (ih (used.set i true) (by simpa using hlen))
      | none =>
        have hfindM := findFree_none _ ug used hlen hM
        simp only [fillPass, hE, hM, fillGapsSpecGo, hfindE, hfindM, List.cons_append]
        exact congrArg _ (ih used hlen)

/-- C6: `fill_field_gaps` behaves exactly as the claim describes — each
reference token of the gap, in order, claims the first not-yet-used
equivalent user token as `correct`, else the first not-yet-used mistake
as `mistake`, else is emitted as `missing`, and every never-claimed user
token is appended afterwards as `wrong` in original order. -/
theorem c6_fill_gaps :
    ∀ (cfg : Cfg) (user_gap reference_gap : List Word),
      fill_field_gaps cfg user_gap reference_gap =
        fillGapsSpec cfg user_gap reference_gap := by
  intro cfg ug rg
  have h := fillPass_spec cfg ug rg (List.replicate ug.length false) (by simp)
  rw [selectUnused_replicate_false ug] at h
  exact h

/-! ## Claim C4: identity comparison -/

theorem are_equivalent_refl (s : String) : are_equivalent s s = true := by
  unfold are_equivalent
  by_cases h : s.data = []
  · rw [if_pos ⟨h, h⟩]
  · rw [if_neg (by tauto), if_neg (by tauto)]
    exact beq_self_eq_true s

theorem text_to_word_list_stripTs (t : String) (ts₁ ts₂ : List ℚ) :
    (text_to_word_list t ts₁).map stripTs = (text_to_word_list t ts₂).map stripTs := by
  unfold text_to_word_list
  simp only [List.map_map]
  rfl

theorem text_to_word_list_length (t : String) (ts : List ℚ) :
    (text_to_word_list t ts).length = (findAllNonWS t.data).length := by
  simp [text_to_word_list]

theorem text_to_word_list_getD_eq (t : String) (ts₁ ts₂ : List ℚ) (i : Nat) :
    ((text_to_word_list t ts₁).getD i dummyWord).text =
      ((text_to_word_list t ts₂).getD i dummyWord).text
    ∧ ((text_to_word_list t ts₁).getD i dummyWord).normalized =
      ((text_to_word_list t ts₂).getD i dummyWord).normalized := by
  by_cases h : i < (findAllNonWS t.data).length
  · have h₁ : i < (text_to_word_list t ts₁).length := by rwa [text_to_word_list_length]
    have h₂ : i < (text_to_word_list t ts₂).length := by rwa [text_to_word_list_length]
    rw [List.getD_eq_getElem _ _ h₁, List.getD_eq_getElem _ _ h₂]
    simp [text_to_word_list]
  · have h₁ : (text_to_word_list t ts₁).length ≤ i := by rw [text_to_word_list_length]; omega
    have h₂ : (text_to_word_list t ts₂).length ≤ i := by rw [text_to_word_list_length]; omega
    rw [List.getD_eq_getElem?_getD, List.getElem?_eq_none h₁,
      List.getD_eq_getElem?_getD, List.getElem?_eq_none h₂]
    exact ⟨rfl, rfl⟩

theorem loopGo_identity (cfg : Cfg) (us rs : List Word)
    (hlen : rs.length = us.length)
    (hnorm : ∀ i, i < us.length →
      (rs.getD i dummyWord).normalized = (us.getD i dummyWord).normalized) :
    ∀ (f i : Nat) (m : Bool), us.length - i ≤ f → (m = true ∨ i = 0) →
      loopGo cfg us rs f i i m =
        (us.drop i).map (fun w => (⟨w.text, Kind.correct⟩ : DiffItem)) := by
  intro f
  induction f with
  | zero =>
    intro i m hf _
    have hi : us.length ≤ i := by omega
    have h1 : us.drop i = [] := List.drop_eq_nil_of_le hi
    have h2 : rs.drop i = [] := List.drop_eq_nil_of_le (by omega)
    show drain us rs i i = _
    unfold drain
    rw [h1, h2]
    rfl
  | succ f ih =>
    intro i m hf hm
    by_cases hi : i < us.length
    · have hflush : (!m && decide (0 < i)) = false := by
        rcases hm with rfl | rfl
        · rfl
        · simp
      have hstep : stepFn cfg us rs i i m =
          ([⟨(us.getD i dummyWord).text, Kind.correct⟩], i + 1, i + 1, true) := by
        simp only [stepFn]
        rw [hnorm i hi, are_equivalent_refl]
        rw [if_pos rfl, hflush]
        rw [if_neg (by simp)]
        rfl
      show (if i < us.length ∧ i < rs.length then _ else _) = _
      rw [if_pos ⟨hi, by omega⟩, hstep]
      simp only [List.singleton_append]
      rw [ih (i + 1) true (by omega) (Or.inl rfl)]
      rw [List.drop_eq_getElem_cons hi, List.map_cons]
      rw [List.getD_eq_getElem _ _ hi]
    · show (if i < us.length ∧ i < rs.length then _ else _) = _
      rw [if_neg (by tauto)]
      have h1 : us.drop i = [] := List.drop_eq_nil_of_le (by omega)
      have h2 : rs.drop i = [] := List.drop_eq_nil_of_le (by omega)
      unfold drain
      rw [h1, h2]
      rfl

theorem compare_identity (cfg : Cfg) (x : String) (uts rts : List ℚ) :
    TranscriptionComparerV4Pro.compare cfg x x uts rts =
      (text_to_word_list x uts).map (fun w => (⟨w.text, Kind.correct⟩ : DiffItem)) := by
  unfold TranscriptionComparerV4Pro.compare
  have hlen : (text_to_word_list x rts).length = (text_to_word_list x uts).length := by
    rw [text_to_word_list_length, text_to_word_list_length]
  have hnorm : ∀ i, i < (text_to_word_list x uts).length →
      ((text_to_word_list x rts).getD i dummyWord).normalized =
        ((text_to_word_list x uts).getD i dummyWord).normalized := by
    intro i _
    exact ((text_to_word_list_getD_eq x rts uts i).2)
  have h := loopGo_identity cfg (text_to_word_list x uts) (text_to_word_list x rts)
    hlen hnorm (text_to_word_list x uts).length 0 false (by omega) (Or.inr rfl)
  simpa using h

/-- C4 counterexample: on the empty input text, `compare_and_score(x, x)`
yields accuracy `0`, not `1`, because the diff is empty and `total = 0`. -/
theorem c4_counterexample : (get_detailed_comparison "" "" [] []).2.1 ≠ 1 := by decide

/-- C4 (amended): for every input text `x`, `compare(x, x)` yields one
`correct` entry per token of `x`, in order; and whenever `x` has at
least one token, `compare_and_score(x, x)` yields accuracy `1` (for a
token-less `x` the accuracy is `0`, per the empty-diff rule of C7). -/
theorem c4_identity_amended :
    ∀ (cfg : Cfg) (x : String) (uts rts : List ℚ),
      TranscriptionComparerV4Pro.compare cfg x x uts rts =
        (text_to_word_list x uts).map (fun w => (⟨w.text, Kind.correct⟩ : DiffItem))
      ∧ (text_to_word_list x uts ≠ [] →
          (get_detailed_comparison x x uts rts).2.1 = 1) := by
  intro cfg x uts rts
  refine ⟨compare_identity cfg x uts rts, ?_⟩
  intro hne
  have hdiff := compare_identity {} x uts rts
  show (let comparison := TranscriptionComparerV4Pro.compare {} x x uts rts
        let correct_count := comparison.countP (fun item => item.type == Kind.correct)
        let mistake_count := comparison.countP (fun item => item.type == Kind.mistake)
        let missing_count := comparison.countP (fun item => item.type == Kind.missing)
        let wrong_count := comparison.countP (fun item => item.type == Kind.wrong)
        let total_count := correct_count + mistake_count + missing_count + wrong_count
        if 0 < total_count then
          ((correct_count : ℚ) + (mistake_count : ℚ) * (1 / 2)) / (total_count : ℚ)
        else (0 : ℚ)) = 1
  simp only [hdiff, List.countP_map]
  have hc : ((text_to_word_list x uts).countP
      ((fun item => item.type == Kind.correct) ∘ fun w => (⟨w.text, Kind.correct⟩ : DiffItem)))
      = (text_to_word_list x uts).length := by
    simp [Function.comp, List.countP_true]
  have hm : ((text_to_word_list x uts).countP
      ((fun item => item.type == Kind.mistake) ∘ fun w => (⟨w.text, Kind.correct⟩ : DiffItem)))
      = 0 := by
    simp [Function.comp]
  have hmi : ((text_to_word_list x uts).countP
      ((fun item => item.type == Kind.missing) ∘ fun w => (⟨w.text, Kind.correct⟩ : DiffItem)))
      = 0 := by
    simp [Function.comp]
  have hw : ((text_to_word_list x uts).countP
      ((fun item => item.type == Kind.wrong) ∘ fun w => (⟨w.text, Kind.correct⟩ : DiffItem)))
      = 0 := by
    simp [Function.comp]
  rw [hc, hm, hmi, hw]
  have hpos : 0 < (text_to_word_list x uts).length := List.length_pos.mpr hne
  rw [if_pos (by omega)]
  push_cast
  rw [mul_comm]
  have hne' : ((text_to_word_list x uts).length : ℚ) ≠ 0 := Nat.cast_ne_zero.mpr (by omega)
  field_simp

/-- C4 amended witness: the amended identity statement evaluated at
`"hello world"`. -/
theorem c4_identity_witness :
    (get_detailed_comparison "hello world" "hello world" [] []).2.1 = 1 :=
  (c4_identity_amended {} "hello world" [] []).2 (by decide)


/-! ## Claim C10: termination -/

theorem realign_eq_of_duble (cfg : Cfg) (us : List Word) (uidx : Nat) (rs : List Word)
    (ridx : Nat) (m : Bool) (uo ro : Nat) (du : Word × Word)
    (h : findDubleMatch cfg (generate_dubles (us.drop uidx)) (rs.drop ridx) =
      some (uo, ro, du)) :
    realign_with_dubles cfg us uidx rs ridx m =
      (uidx + uo + 2, ridx + ro + 2,
        (if !m && decide (0 < ridx + ro) then
            ((rs.drop ridx).take ro).map (fun w => (⟨w.text, Kind.missing⟩ : DiffItem))
          else []) ++
        fill_field_gaps cfg ((us.drop uidx).take uo) ((rs.drop ridx).take ro) ++
        [⟨du.1.text, Kind.correct⟩, ⟨du.2.text, Kind.correct⟩]) := by
  simp only [realign_with_dubles, h]

theorem realign_eq_of_single (cfg : Cfg) (us : List Word) (uidx : Nat) (rs : List Word)
    (ridx : Nat) (m : Bool) (j : Nat) (k : Kind)
    (hd : findDubleMatch cfg (generate_dubles (us.drop uidx)) (rs.drop ridx) = none)
    (hs : singleScan cfg us uidx rs ridx = some (j, k)) :
    realign_with_dubles cfg us uidx rs ridx m =
      (uidx + 1, j + 1,
        (if !m && decide (0 < j) then
            ((rs.drop ridx).take (j - ridx)).map (fun w => (⟨w.text, Kind.missing⟩ : DiffItem))
          else []) ++
        [⟨(us.getD uidx dummyWord).text, k⟩]) := by
  simp only [realign_with_dubles, hd, hs]

theorem realign_eq_none (cfg : Cfg) (us : List Word) (uidx : Nat) (rs : List Word)
    (ridx : Nat) (m : Bool)
    (hd : findDubleMatch cfg (generate_dubles (us.drop uidx)) (rs.drop ridx) = none)
    (hs : singleScan cfg us uidx rs ridx = none) :
    realign_with_dubles cfg us uidx rs ridx m = (uidx, ridx, []) := by
  simp only [realign_with_dubles, hd, hs]

theorem realign_advance (cfg : Cfg) (us : List Word) (uidx : Nat) (rs : List Word)
    (ridx : Nat) (m : Bool) :
    ((realign_with_dubles cfg us uidx rs ridx m).2.2 ≠ [] →
      uidx + 1 ≤ (realign_with_dubles cfg us uidx rs ridx m).1)
    ∧ ((realign_with_dubles cfg us uidx rs ridx m).2.2 = [] →
      (realign_with_dubles cfg us uidx rs ridx m).1 = uidx
      ∧ (realign_with_dubles cfg us uidx rs ridx m).2.1 = ridx) := by
  cases hd : findDubleMatch cfg (generate_dubles (us.drop uidx)) (rs.drop ridx) with
  | some t =>
    obtain ⟨uo, ro, du⟩ := t
    rw [realign_eq_of_duble cfg us uidx rs ridx m uo ro du hd]
    exact ⟨fun _ => by omega, fun hemp => absurd hemp (by simp)⟩
  | none =>
    cases hs : singleScan cfg us uidx rs ridx with
    | some t =>
      obtain ⟨j, k⟩ := t
      rw [realign_eq_of_single cfg us uidx rs ridx m j k hd hs]
      exact ⟨fun _ => by omega, fun hemp => absurd hemp (by simp)⟩
    | none =>
      rw [realign_eq_none cfg us uidx rs ridx m hd hs]
      exact ⟨fun hne => absurd rfl hne, fun _ => ⟨rfl, rfl⟩⟩

/-- Every loop iteration advances the user cursor by at least one. -/
theorem stepFn_advances (cfg : Cfg) (us rs : List Word) (uidx ridx : Nat) (m : Bool) :
    uidx + 1 ≤ (stepFn cfg us rs uidx ridx m).2.1 := by
  simp only [stepFn]
  by_cases heq : are_equivalent (us.getD uidx dummyWord).normalized
      (rs.getD ridx dummyWord).normalized
  · rw [if_pos heq]
  · rw [if_neg heq]
    by_cases hmk : is_mistake cfg (us.getD uidx dummyWord).normalized
        (rs.getD ridx dummyWord).normalized
    · rw [if_pos hmk]
    · rw [if_neg hmk]
      by_cases hemp : (realign_with_dubles cfg us uidx rs ridx m).2.2.isEmpty
      · rw [if_pos hemp]
        have h := (realign_advance cfg us uidx rs ridx m).2 (List.isEmpty_iff.mp hemp)
        simp only
        omega
      · rw [if_neg hemp]
        have h := (realign_advance cfg us uidx rs ridx m).1
          (by simpa [List.isEmpty_iff] using hemp)
        simpa using h

theorem loopGo_out_of_users (cfg : Cfg) (us rs : List Word) (f uidx ridx : Nat) (m : Bool)
    (h : us.length ≤ uidx) :
    loopGo cfg us rs f uidx ridx m = drain us rs uidx ridx := by
  cases f with
  | zero => rfl
  | succ g =>
    show (if uidx < us.length ∧ ridx < rs.length then _ else _) = _
    rw [if_neg (by omega)]

theorem loopGo_fuel (cfg : Cfg) (us rs : List Word) :
    ∀ (f₁ f₂ uidx ridx : Nat) (m : Bool),
      us.length - uidx ≤ f₁ → us.length - uidx ≤ f₂ →
      loopGo cfg us rs f₁ uidx ridx m = loopGo cfg us rs f₂ uidx ridx m := by
  intro f₁
  induction f₁ with
  | zero =>
    intro f₂ uidx ridx m h₁ h₂
    rw [loopGo_out_of_users cfg us rs 0 uidx ridx m (by omega),
      loopGo_out_of_users cfg us rs f₂ uidx ridx m (by omega)]
  | succ a ih =>
    intro f₂ uidx ridx m h₁ h₂
    by_cases hu : uidx < us.length
    · cases f₂ with
      | zero => exact absurd h₂ (by omega)
      | succ b =>
        show (if uidx < us.length ∧ ridx < rs.length then _ else _) =
          (if uidx < us.length ∧ ridx < rs.length then _ else _)
        by_cases hr : ridx < rs.length
        · rw [if_pos ⟨hu, hr⟩, if_pos ⟨hu, hr⟩]
          have hadv := stepFn_advances cfg us rs uidx ridx m
          rw [ih b (stepFn cfg us rs uidx ridx m).2.1
            (stepFn cfg us rs uidx ridx m).2.2.1
            (stepFn cfg us rs uidx ridx m).2.2.2 (by omega) (by omega)]
        · rw [if_neg (by tauto), if_neg (by tauto)]
    · rw [loopGo_out_of_users cfg us rs (a + 1) uidx ridx m (by omega),
        loopGo_out_of_users cfg us rs f₂ uidx ridx m (by omega)]

/-- C10: `compare` terminates on every input.  Whenever
`realign_with_dubles` appends output its returned user cursor is
advanced by at least 1 (and when it appends nothing both cursors come
back unchanged, so the single-step recovery advances `user_idx` by 1);
consequently the main loop runs at most `len(user_words)` iterations,
and executing it with any fuel at least that bound yields exactly
`compare`'s result. -/
theorem c10_termination :
    (∀ (cfg : Cfg) (us : List Word) (uidx : Nat) (rs : List Word) (ridx : Nat) (m : Bool),
      ((realign_with_dubles cfg us uidx rs ridx m).2.2 ≠ [] →
        uidx + 1 ≤ (realign_with_dubles cfg us uidx rs ridx m).1)
      ∧ ((realign_with_dubles cfg us uidx rs ridx m).2.2 = [] →
        (realign_with_dubles cfg us uidx rs ridx m).1 = uidx
        ∧ (realign_with_dubles cfg us uidx rs ridx m).2.1 = ridx))
    ∧ (∀ (cfg : Cfg) (user_text reference_text : String) (uts rts : List ℚ) (f : Nat),
        (text_to_word_list user_text uts).length ≤ f →
        loopGo cfg (text_to_word_list user_text uts)
          (text_to_word_list reference_text rts) f 0 0 false =
          TranscriptionComparerV4Pro.compare cfg user_text reference_text uts rts) := by
  refine ⟨realign_advance, ?_⟩
  intro cfg u r uts rts f hf
  exact loopGo_fuel cfg _ _ f (text_to_word_list u uts).length 0 0 false
    (by omega) (by omega)

/-- C10 witness: both conjuncts applied at concrete inputs — the
realignment on `"a b"` vs `"a b"` advances the user cursor, and running
the main loop on `"a b"` vs `"c d"` with fuel 7 returns `compare`'s
result. -/
theorem c10_termination_witness :
    0 + 1 ≤ (realign_with_dubles {} (text_to_word_list "a b" []) 0
      (text_to_word_list "a b" []) 0 false).1
    ∧ loopGo {} (text_to_word_list "a b" []) (text_to_word_list "c d" []) 7 0 0 false =
        TranscriptionComparerV4Pro.compare {} "a b" "c d" [] [] :=
  ⟨(c10_termination.1 {} (text_to_word_list "a b" []) 0
      (text_to_word_list "a b" []) 0 false).1 (by decide),
   c10_termination.2 {} "a b" "c d" [] [] 7 (by decide)⟩

/-! ## Claim C5: disjoint inputs -/

theorem getD_mem_of_lt (l : List Word) (n : Nat) (h : n < l.length) :
    l.getD n dummyWord ∈ l := by
  rw [List.getD_eq_getElem _ _ h]
  exact List.getElem_mem h

theorem mem_generate_dubles :
    ∀ (l : List Word) (p : Word × Word), p ∈ generate_dubles l → p.1 ∈ l ∧ p.2 ∈ l := by
  intro l
  induction l with
  | nil => intro p hp; simp [generate_dubles] at hp
  | cons a tl ih =>
    intro p hp
    cases tl with
    | nil => simp [generate_dubles] at hp
    | cons b rest =>
      rcases List.mem_cons.mp hp with rfl | hmem
      · exact ⟨List.mem_cons_self _ _, List.mem_cons_of_mem _ (List.mem_cons_self _ _)⟩
      · obtain ⟨h1, h2⟩ := ih p hmem
        exact ⟨List.mem_cons_of_mem _ h1, List.mem_cons_of_mem _ h2⟩

theorem findSomeIdx_eq_none (f : Nat → α → Option β) :
    ∀ (l : List α) (n : Nat), (∀ i a, a ∈ l → f i a = none) → findSomeIdx f n l = none := by
  intro l
  induction l with
  | nil => intro n _; rfl
  | cons a tl ih =>
    intro n h
    show (match f n a with | some b => some b | none => findSomeIdx f (n + 1) tl) = none
    rw [h n a (List.mem_cons_self _ _)]
    exact ih (n + 1) (fun i x hx => h i x (List.mem_cons_of_mem _ hx))

theorem findSome?_eq_none_of (f : α → Option β) :
    ∀ (l : List α), (∀ a ∈ l, f a = none) → l.findSome? f = none := by
  intro l
  induction l with
  | nil => intro _; rfl
  | cons a tl ih =>
    intro h
    rw [List.findSome?_cons]
    rw [h a (List.mem_cons_self _ _)]
    exact ih (fun x hx => h x (List.mem_cons_of_mem _ hx))

theorem findDubleMatch_none (cfg : Cfg) (us rs : List Word) (uidx ridx : Nat)
    (h : ∀ uw ∈ us, ∀ rw ∈ rs, are_equivalent uw.normalized rw.normalized = false) :
    findDubleMatch cfg (generate_dubles (us.drop uidx)) (rs.drop ridx) = none := by
  unfold findDubleMatch
  apply findSomeIdx_eq_none
  intro _ du hdu
  apply findSome?_eq_none_of
  intro ws _
  apply findSomeIdx_eq_none
  intro _ dr hdr
  have hdu1 : du.1 ∈ us := List.drop_subset uidx us (mem_generate_dubles _ du hdu).1
  have hdr1 : dr.1 ∈ rs :=
    List.drop_subset ridx rs
      (List.drop_subset ws _
        (List.take_subset cfg.window_size _ (mem_generate_dubles _ dr hdr).1))
  have heq : are_dubles_equivalent du dr = false := by
    unfold are_dubles_equivalent
    rw [h du.1 hdu1 dr.1 hdr1]
    rfl
  rw [heq]
  rfl

theorem singleScan_none (cfg : Cfg) (us : List Word) (uidx : Nat) (rs : List Word)
    (ridx : Nat)
    (h : ∀ uw ∈ us, ∀ rw ∈ rs,
      are_equivalent uw.normalized rw.normalized = false
      ∧ is_mistake cfg uw.normalized rw.normalized = false) :
    singleScan cfg us uidx rs ridx = none := by
  unfold singleScan
  by_cases hu : uidx < us.length
  · rw [if_pos hu]
    apply findSome?_eq_none_of
    intro j hj
    obtain ⟨hj1, hj2⟩ := List.mem_range'_1.mp hj
    have hjlt : j < rs.length := by omega
    have hum : us.getD uidx dummyWord ∈ us := getD_mem_of_lt us uidx hu
    have hrm : rs.getD j dummyWord ∈ rs := getD_mem_of_lt rs j hjlt
    obtain ⟨heq, hmk⟩ := h _ hum _ hrm
    rw [heq, hmk]
    rfl
  · rw [if_neg hu]

theorem loopGo_disjoint (cfg : Cfg) (us rs : List Word)
    (h : ∀ uw ∈ us, ∀ rw ∈ rs,
      are_equivalent uw.normalized rw.normalized = false
      ∧ is_mistake cfg uw.normalized rw.normalized = false) :
    ∀ (f uidx : Nat), us.length - uidx ≤ f →
      loopGo cfg us rs f uidx 0 false =
        (us.drop uidx).map (fun w => (⟨w.text, Kind.wrong⟩ : DiffItem)) ++
          rs.map (fun w => (⟨w.text, Kind.missing⟩ : DiffItem)) := by
  intro f
  induction f with
  | zero =>
    intro uidx hf
    have h1 : us.drop uidx = [] := List.drop_eq_nil_of_le (by omega)
    show drain us rs uidx 0 = _
    unfold drain
    rw [h1, List.drop_zero]
  | succ f ih =>
    intro uidx hf
    by_cases hu : uidx < us.length
    · by_cases hrs : 0 < rs.length
      · have hum : us.getD uidx dummyWord ∈ us := getD_mem_of_lt us uidx hu
        have hrm : rs.getD 0 dummyWord ∈ rs := getD_mem_of_lt rs 0 hrs
        obtain ⟨heq, hmk⟩ := h _ hum _ hrm
        have hre : realign_with_dubles cfg us uidx rs 0 false = (uidx, 0, []) :=
          realign_eq_none cfg us uidx rs 0 false
            (findDubleMatch_none cfg us rs uidx 0 (fun uw hu rw hr => (h uw hu rw hr).1))
            (singleScan_none cfg us uidx rs 0 h)
        have hstep : stepFn cfg us rs uidx 0 false =
            ([⟨(us.getD uidx dummyWord).text, Kind.wrong⟩], uidx + 1, 0, false) := by
          simp only [stepFn]
          rw [if_neg (by rw [heq]; simp), if_neg (by rw [hmk]; simp), hre]
          rfl
        show (if uidx < us.length ∧ 0 < rs.length then _ else _) = _
        rw [if_pos ⟨hu, hrs⟩, hstep]
        simp only [List.singleton_append]
        rw [ih (uidx + 1) (by omega)]
        rw [List.drop_eq_getElem_cons hu, List.map_cons, List.cons_append,
          List.getD_eq_getElem _ _ hu]
      · show (if uidx < us.length ∧ 0 < rs.length then _ else _) = _
        rw [if_neg (by tauto)]
        unfold drain
        rw [List.drop_zero]
    · rw [loopGo_out_of_users cfg us rs (f + 1) uidx 0 false (by omega)]
      unfold drain
      rw [List.drop_zero]

/-- C5: on non-empty inputs in which no user token is equivalent to, or
within the mistake threshold of, any reference token, `compare` returns
every user token as `wrong` (in order) followed by every reference token
as `missing` (in order), with no interleaving. -/
theorem c5_disjointness :
    ∀ (cfg : Cfg) (x y : String) (uts rts : List ℚ),
      text_to_word_list x uts ≠ [] → text_to_word_list y rts ≠ [] →
      (∀ uw ∈ text_to_word_list x uts, ∀ rw ∈ text_to_word_list y rts,
        are_equivalent uw.normalized rw.normalized = false
        ∧ is_mistake cfg uw.normalized rw.normalized = false) →
      TranscriptionComparerV4Pro.compare cfg x y uts rts =
        (text_to_word_list x uts).map (fun w => (⟨w.text, Kind.wrong⟩ : DiffItem)) ++
          (text_to_word_list y rts).map (fun w => (⟨w.text, Kind.missing⟩ : DiffItem)) := by
  intro cfg x y uts rts _ _ h
  have hloop := loopGo_disjoint cfg (text_to_word_list x uts) (text_to_word_list y rts) h
    (text_to_word_list x uts).length 0 (by omega)
  simpa using hloop

/-- C5 witness: the disjointness statement evaluated on the spec's own
scenario, `"xyz abc"` vs `"hello world"`. -/
theorem c5_disjointness_witness :
    TranscriptionComparerV4Pro.compare {} "xyz abc" "hello world" [] [] =
      (text_to_word_list "xyz abc" []).map (fun w => (⟨w.text, Kind.wrong⟩ : DiffItem)) ++
        (text_to_word_list "hello world" []).map
          (fun w => (⟨w.text, Kind.missing⟩ : DiffItem)) :=
  c5_disjointness {} "xyz abc" "hello world" [] [] (by decide) (by decide) (by decide)

/-! ## Claim C9: timestamp noninterference -/

theorem stripTs_text (w : Word) : (stripTs w).text = w.text := rfl

theorem stripTs_normalized (w : Word) : (stripTs w).normalized = w.normalized := rfl

theorem getD_map_stripTs (l : List Word) (i : Nat) :
    (l.map stripTs).getD i dummyWord = stripTs (l.getD i dummyWord) := by
  by_cases h : i < l.length
  · rw [List.getD_eq_getElem _ _ (by simpa using h), List.getD_eq_getElem _ _ h,
      List.getElem_map]
  · rw [List.getD_eq_getElem?_getD, List.getElem?_eq_none (by simpa using h),
      List.getD_eq_getElem?_getD, List.getElem?_eq_none (by omega)]
    rfl

theorem generate_dubles_map :
    ∀ (l : List Word),
      generate_dubles (l.map stripTs) =
        (generate_dubles l).map (fun p => (stripTs p.1, stripTs p.2)) := by
  intro l
  induction l with
  | nil => rfl
  | cons a tl ih =>
    cases tl with
    | nil => rfl
    | cons b rest =>
      simp only [List.map_cons] at ih ⊢
      show (stripTs a, stripTs b) :: generate_dubles (stripTs b :: rest.map stripTs) = _
      rw [ih]
      rfl

theorem findSomeIdx_map (f : Nat → α → Option γ) (g : β → α) :
    ∀ (l : List β) (n : Nat),
      findSomeIdx f n (l.map g) = findSomeIdx (fun i b => f i (g b)) n l := by
  intro l
  induction l with
  | nil => intro n; rfl
  | cons a tl ih =>
    intro n
    show (match f n (g a) with
      | some b => some b
      | none => findSomeIdx f (n + 1) (tl.map g)) =
      (match f n (g a) with
      | some b => some b
      | none => findSomeIdx (fun i b => f i (g b)) (n + 1) tl)
    cases f n (g a) with
    | some b => rfl
    | none => exact ih (n + 1)

theorem findSomeIdx_map_post (f : Nat → α → Option β) (F : β → γ) :
    ∀ (l : List α) (n : Nat),
      (findSomeIdx f n l).map F = findSomeIdx (fun i a => (f i a).map F) n l := by
  intro l
  induction l with
  | nil => intro n; rfl
  | cons a tl ih =>
    intro n
    show (match f n a with
      | some b => some b
      | none => findSomeIdx f (n + 1) tl).map F =
      (match (f n a).map F with
      | some b => some b
      | none => findSomeIdx (fun i a => (f i a).map F) (n + 1) tl)
    cases f n a with
    | some b => rfl
    | none => exact ih (n + 1)

theorem findSomeIdx_congr (f g : Nat → α → Option β) :
    ∀ (l : List α) (n : Nat), (∀ i a, a ∈ l → f i a = g i a) →
      findSomeIdx f n l = findSomeIdx g n l := by
  intro l
  induction l with
  | nil => intro n _; rfl
  | cons a tl ih =>
    intro n h
    show (match f n a with
      | some b => some b
      | none => findSomeIdx f (n + 1) tl) =
      (match g n a with
      | some b => some b
      | none => findSomeIdx g (n + 1) tl)
    rw [h n a (List.mem_cons_self _ _)]
    cases g n a with
    | some b => rfl
    | none => exact ih (n + 1) (fun i x hx => h i x (List.mem_cons_of_mem _ hx))

theorem findSome?_map_post (f : α → Option β) (F : β → γ) :
    ∀ (l : List α), (l.findSome? f).map F = l.findSome? (fun a => (f a).map F) := by
  intro l
  induction l with
  | nil => rfl
  | cons a tl ih =>
    rw [List.findSome?_cons, List.findSome?_cons]
    cases f a with
    | some b => rfl
    | none => exact ih

theorem findSome?_congr (f g : α → Option β) :
    ∀ (l : List α), (∀ a ∈ l, f a = g a) → l.findSome? f = l.findSome? g := by
  intro l
  induction l with
  | nil => intro _; rfl
  | cons a tl ih =>
    intro h
    rw [List.findSome?_cons, List.findSome?_cons, h a (List.mem_cons_self _ _)]
    cases g a with
    | some b => rfl
    | none => exact ih (fun x hx => h x (List.mem_cons_of_mem _ hx))

theorem findDubleMatch_strip (cfg : Cfg) (un rt : List Word) :
    findDubleMatch cfg (generate_dubles (un.map stripTs)) (rt.map stripTs) =
      (findDubleMatch cfg (generate_dubles un) rt).map
        (fun t => (t.1, t.2.1, stripTs t.2.2.1, stripTs t.2.2.2)) := by
  unfold findDubleMatch
  rw [generate_dubles_map, findSomeIdx_map, findSomeIdx_map_post]
  apply findSomeIdx_congr
  intro uo du _
  rw [findSome?_map_post]
  have hlen : (rt.map stripTs).length = rt.length := by simp
  rw [hlen]
  apply findSome?_congr
  intro ws _
  rw [← List.map_drop, ← List.map_take, generate_dubles_map, findSomeIdx_map,
    findSomeIdx_map_post]
  apply findSomeIdx_congr
  intro ro dr _
  show (if are_dubles_equivalent (stripTs du.1, stripTs du.2)
      (stripTs dr.1, stripTs dr.2) = true then _ else none) = _
  have : are_dubles_equivalent (stripTs du.1, stripTs du.2) (stripTs dr.1, stripTs dr.2) =
      are_dubles_equivalent du dr := rfl
  rw [this]
  cases hdeq : are_dubles_equivalent du dr with
  | true => rfl
  | false => rfl

theorem singleScan_strip (cfg : Cfg) (us : List Word) (uidx : Nat) (rs : List Word)
    (ridx : Nat) :
    singleScan cfg (us.map stripTs) uidx (rs.map stripTs) ridx =
      singleScan cfg us uidx rs ridx := by
  unfold singleScan
  have hu : (us.map stripTs).length = us.length := by simp
  have hr : (rs.map stripTs).length = rs.length := by simp
  rw [hu, hr]
  by_cases h : uidx < us.length
  · rw [if_pos h, if_pos h]
    apply findSome?_congr
    intro j _
    rw [getD_map_stripTs, getD_map_stripTs, stripTs_normalized, stripTs_normalized]
  · rw [if_neg h, if_neg h]

theorem findFree_strip (p q : Word → Bool) (hpq : ∀ w, q (stripTs w) = p w) :
    ∀ (ug : List Word) (used : List Bool),
      findFree q (ug.map stripTs) used = findFree p ug used := by
  intro ug
  induction ug with
  | nil => intro used; rfl
  | cons w ws ih =>
    intro used
    show (if used.headD false = false && q (stripTs w) then some 0
      else (findFree q (ws.map stripTs) used.tail).map (· + 1)) = _
    rw [hpq w, ih used.tail]
    rfl

theorem fillPass_strip (cfg : Cfg) (ug : List Word) :
    ∀ (rg : List Word) (used : List Bool),
      fillPass cfg (ug.map stripTs) used (rg.map stripTs) = fillPass cfg ug used rg := by
  intro rg
  induction rg with
  | nil => intro used; rfl
  | cons rw rest ih =>
    intro used
    show fillPass cfg (ug.map stripTs) used (stripTs rw :: rest.map stripTs) = _
    have hE := findFree_strip
      (fun uw => are_equivalent uw.normalized rw.normalized)
      (fun uw => are_equivalent uw.normalized (stripTs rw).normalized)
      (fun w => rfl) ug used
    have hM := findFree_strip
      (fun uw => is_mistake cfg uw.normalized rw.normalized)
      (fun uw => is_mistake cfg uw.normalized (stripTs rw).normalized)
      (fun w => rfl) ug used
    simp only [fillPass, hE, hM]
    cases hfe : findFree (fun uw => are_equivalent uw.normalized rw.normalized) ug used with
    | some i =>
      simp only [ih (used.set i true), getD_map_stripTs, stripTs_text]
    | none =>
      cases hfm : findFree (fun uw => is_mistake cfg uw.normalized rw.normalized) ug used with
      | some i =>
        simp only [ih (used.set i true), getD_map_stripTs, stripTs_text]
      | none =>
        simp only [ih used, stripTs_text]

theorem remainingWrongs_strip :
    ∀ (ug : List Word) (used : List Bool),
      remainingWrongs (ug.map stripTs) used = remainingWrongs ug used := by
  intro ug
  induction ug with
  | nil => intro used; rfl
  | cons w ws ih =>
    intro used
    show (if used.headD false then remainingWrongs (ws.map stripTs) used.tail
      else ⟨(stripTs w).text, Kind.wrong⟩ :: remainingWrongs (ws.map stripTs) used.tail) = _
    rw [ih used.tail, stripTs_text]
    rfl

theorem fill_field_gaps_strip (cfg : Cfg) (ug rg : List Word) :
    fill_field_gaps cfg (ug.map stripTs) (rg.map stripTs) = fill_field_gaps cfg ug rg := by
  unfold fill_field_gaps
  have hlen : (ug.map stripTs).length = ug.length := by simp
  simp only [hlen, fillPass_strip, remainingWrongs_strip]

theorem missing_text_map_strip (l : List Word) :
    (l.map stripTs).map (fun w => (⟨w.text, Kind.missing⟩ : DiffItem)) =
      l.map (fun w => (⟨w.text, Kind.missing⟩ : DiffItem)) := by
  rw [List.map_map]
  rfl

theorem realign_strip (cfg : Cfg) (us : List Word) (uidx : Nat) (rs : List Word)
    (ridx : Nat) (m : Bool) :
    realign_with_dubles cfg (us.map stripTs) uidx (rs.map stripTs) ridx m =
      realign_with_dubles cfg us uidx rs ridx m := by
  cases hd : findDubleMatch cfg (generate_dubles (us.drop uidx)) (rs.drop ridx) with
  | some t =>
    obtain ⟨uo, ro, du⟩ := t
    have hd' : findDubleMatch cfg (generate_dubles ((us.map stripTs).drop uidx))
        ((rs.map stripTs).drop ridx) = some (uo, ro, stripTs du.1, stripTs du.2) := by
      rw [← List.map_drop, ← List.map_drop, findDubleMatch_strip, hd]
      rfl
    rw [realign_eq_of_duble cfg (us.map stripTs) uidx (rs.map stripTs) ridx m uo ro
      (stripTs du.1, stripTs du.2) hd',
      realign_eq_of_duble cfg us uidx rs ridx m uo ro du hd]
    rw [← List.map_drop, ← List.map_drop, ← List.map_take, ← List.map_take,
      fill_field_gaps_strip, missing_text_map_strip]
    rfl
  | none =>
    have hd' : findDubleMatch cfg (generate_dubles ((us.map stripTs).drop uidx))
        ((rs.map stripTs).drop ridx) = none := by
      rw [← List.map_drop, ← List.map_drop, findDubleMatch_strip, hd]
      rfl
    cases hs : singleScan cfg us uidx rs ridx with
    | some t =>
      obtain ⟨j, k⟩ := t
      have hs' : singleScan cfg (us.map stripTs) uidx (rs.map stripTs) ridx = some (j, k) := by
        rw [singleScan_strip, hs]
      rw [realign_eq_of_single cfg (us.map stripTs) uidx (rs.map stripTs) ridx m j k hd' hs',
        realign_eq_of_single cfg us uidx rs ridx m j k hd hs]
      rw [← List.map_drop, ← List.map_take, missing_text_map_strip,
        getD_map_stripTs, stripTs_text]
    | none =>
      have hs' : singleScan cfg (us.map stripTs) uidx (rs.map stripTs) ridx = none := by
        rw [singleScan_strip, hs]
      rw [realign_eq_none cfg (us.map stripTs) uidx (rs.map stripTs) ridx m hd' hs',
        realign_eq_none cfg us uidx rs ridx m hd hs]

theorem stepFn_strip (cfg : Cfg) (us rs : List Word) (uidx ridx : Nat) (m : Bool) :
    stepFn cfg (us.map stripTs) (rs.map stripTs) uidx ridx m =
      stepFn cfg us rs uidx ridx m := by
  simp only [stepFn, getD_map_stripTs, stripTs_normalized, stripTs_text, realign_strip]
  rw [← List.map_take, missing_text_map_strip]

theorem drain_strip (us rs : List Word) (uidx ridx : Nat) :
    drain (us.map stripTs) (rs.map stripTs) uidx ridx = drain us rs uidx ridx := by
  unfold drain
  rw [← List.map_drop, ← List.map_drop, missing_text_map_strip, List.map_map]
  rfl

theorem loopGo_strip (cfg : Cfg) (us rs : List Word) :
    ∀ (f uidx ridx : Nat) (m : Bool),
      loopGo cfg (us.map stripTs) (rs.map stripTs) f uidx ridx m =
        loopGo cfg us rs f uidx ridx m := by
  intro f
  induction f with
  | zero => intro uidx ridx m; exact drain_strip us rs uidx ridx
  | succ f ih =>
    intro uidx ridx m
    have hu : (us.map stripTs).length = us.length := by simp
    have hr : (rs.map stripTs).length = rs.length := by simp
    show (if uidx < (us.map stripTs).length ∧ ridx < (rs.map stripTs).length
      then _ else _) = (if uidx < us.length ∧ ridx < rs.length then _ else _)
    rw [hu, hr]
    by_cases hg : uidx < us.length ∧ ridx < rs.length
    · rw [if_pos hg, if_pos hg, stepFn_strip, ih]
    · rw [if_neg hg, if_neg hg]
      exact drain_strip us rs uidx ridx

/-- C9: the optional timestamp arguments never influence the diff —
`compare` returns the identical entries for any two choices of user and
reference timestamp lists. -/
theorem c9_timestamp_noninterference :
    ∀ (cfg : Cfg) (user_text reference_text : String) (uts₁ rts₁ uts₂ rts₂ : List ℚ),
      TranscriptionComparerV4Pro.compare cfg user_text reference_text uts₁ rts₁ =
        TranscriptionComparerV4Pro.compare cfg user_text reference_text uts₂ rts₂ := by
  intro cfg u r uts₁ rts₁ uts₂ rts₂
  show loopGo cfg (text_to_word_list u uts₁) (text_to_word_list r rts₁)
      (text_to_word_list u uts₁).length 0 0 false =
    loopGo cfg (text_to_word_list u uts₂) (text_to_word_list r rts₂)
      (text_to_word_list u uts₂).length 0 0 false
  have hflen : (text_to_word_list u uts₁).length = (text_to_word_list u uts₂).length := by
    rw [text_to_word_list_length, text_to_word_list_length]
  rw [hflen, ← loopGo_strip cfg (text_to_word_list u uts₁) (text_to_word_list r rts₁),
    text_to_word_list_stripTs u uts₁ uts₂, text_to_word_list_stripTs r rts₁ rts₂,
    loopGo_strip]
